import Mathlib

/-
Verification development for the file-integrity monitor implemented in
src/fim.py (class FileIntegrityMonitor).

Modeling conventions of the shallow embedding:

- JSON documents (the persisted baseline format handled by json.dump and
  json.load) are modeled at the level of their abstract value tree by the
  mutual inductive type Json below.  JSON numbers are modeled as exact
  rationals.  A Python dict is modeled as an association list in document
  order; Python dicts have unique keys, which appears as a Nodup hypothesis
  where a statement needs it.
- Relative paths are strings joined with the separator character between
  components, mirroring os.path.relpath / os.path.join output on the scanned
  tree; os.path.basename is the suffix after the last separator.
- SHA-256 (hashlib.sha256, an external library primitive) is an abstract
  parameter (sha : List Nat -> String) mapping a file's byte content to its
  hex digest; calculate_hash feeds it the streamed bytes of the file.
- Python exceptions raised and caught inside a function are modeled with
  Except; a value caught by a surrounding handler is turned into the value
  the handler returns, exactly as in the source.
- Filesystem state is an explicit tree (FSDir); each file carries the outcome
  of os.stat and of opening/reading it, so that permission errors, vanished
  files and I/O errors during a scan are expressible.
-/

namespace FIM

/- Abstract syntax of JSON documents, as produced by json.load.  Arrays and
objects hold their elements through the mutually defined list types. -/
mutual
inductive Json where
  | null : Json
  | bool (b : Bool) : Json
  | num (q : Rat) : Json
  | str (s : String) : Json
  | arr (elems : JsonList) : Json
  | obj (fields : JsonFields) : Json
inductive JsonList where
  | nil : JsonList
  | cons (hd : Json) (tl : JsonList) : JsonList
inductive JsonFields where
  | nil : JsonFields
  | cons (key : String) (val : Json) (tl : JsonFields) : JsonFields
end

deriving instance DecidableEq for Json, JsonList, JsonFields

/-- Lookup of a key in a JSON object's field list: Python dict indexing
info[k] succeeds exactly when this returns some. -/
def lookupKey (k : String) : JsonFields → Option Json
  | .nil => none
  | .cons key v tl => if key = k then some v else lookupKey k tl

/-- A record value as held in a loaded or freshly scanned baseline mapping:
the field list of one JSON object (one Python dict). -/
abbrev RawRec := JsonFields

/-- Lookup in an association-list mapping (a Python dict from relative path
to record).  Membership testing p in d is (alistLookup p d).isSome. -/
def alistLookup {α : Type} (k : String) : List (String × α) → Option α
  | [] => none
  | kv :: tl => if kv.1 = k then some kv.2 else alistLookup k tl

/-- Conversion of an association list to a JSON object field list, used when
json.dump serializes a dict. -/
def objOfList : List (String × Json) → JsonFields
  | [] => .nil
  | kv :: tl => .cons kv.1 kv.2 (objOfList tl)

/-- Python str.startswith applied to the one-character string of a dot or,
generally, reading off the first character. -/
def startsWithDot (s : String) : Bool :=
  match s.data with
  | [] => false
  | c :: _ => c == '.'

/-- os.path.basename: the longest suffix of the path containing no
separator character. -/
def basename (p : String) : String :=
  ⟨(p.data.reverse.takeWhile (fun c => c ≠ '/')).reverse⟩

/-- Path concatenation as performed by os.path.join followed by
os.path.relpath against the scan root: at the root the relative path is the
bare filename, below it the parent's relative path plus a separator. -/
def joinPath (pfx name : String) : String :=
  if pfx = "" then name else pfx ++ "/" ++ name

/-- Constructor logic for self.ignore_files: the caller-supplied ignore
filenames with the log filename always added (fim.py line 28-29). -/
def ignoreFiles (userIgnore : List String) : List String :=
  "fim.log" :: userIgnore

/-- self.max_file_size, the 500 MiB limit set in the constructor. -/
def max_file_size : Nat := 500 * 1024 * 1024

/-- Outcome of determining a file's size and streaming its bytes, the
operations os.path.getsize and open/read inside calculate_hash.  The error
constructors are the exception classes caught there. -/
inductive FileReadOutcome where
  | content (bytes : List Nat) : FileReadOutcome
  | permissionError : FileReadOutcome
  | fileNotFound : FileReadOutcome
  | ioError : FileReadOutcome
  | otherError : FileReadOutcome

/-- FileIntegrityMonitor.calculate_hash (fim.py lines 72-102): none is the
skip-signal (Python None).  Oversized files are skipped before reading; any
PermissionError, FileNotFoundError, IOError or other exception while sizing
or reading the file is caught and turned into the skip-signal. -/
def calculate_hash (sha : List Nat → String) (maxFileSize : Nat)
    (f : FileReadOutcome) : Option String :=
  match f with
  | .content bytes => if bytes.length > maxFileSize then none else some (sha bytes)
  | .permissionError => none
  | .fileNotFound => none
  | .ioError => none
  | .otherError => none

/-- A file as encountered on disk: the outcome of os.stat (none when stat
raises, otherwise st_size, st_mtime, st_ctime) and the outcome of reading
its bytes. -/
structure FileNode where
  stat : Option (Int × Rat × Rat)
  read : FileReadOutcome

/-- The in-memory record built by get_file_info for one file. -/
structure FileRecord where
  hash : String
  size : Int
  modified : Rat
  created : Rat
deriving DecidableEq

/-- The JSON object get_file_info's dict literal denotes (fim.py lines
113-118), and which json.dump writes for one file. -/
def rawOfRecord (r : FileRecord) : RawRec :=
  .cons "hash" (.str r.hash)
    (.cons "size" (.num (r.size : Rat))
      (.cons "modified" (.num r.modified)
        (.cons "created" (.num r.created) .nil)))

/-- FileIntegrityMonitor.get_file_info (fim.py lines 104-130): os.stat first
(any failure caught, returning None), then calculate_hash; a skip-signal from
the hasher makes the whole record None. -/
def get_file_info (sha : List Nat → String) (f : FileNode) : Option FileRecord :=
  match f.stat with
  | none => none
  | some (sz, mt, ct) =>
      match calculate_hash sha max_file_size f.read with
      | none => none
      | some h => some ⟨h, sz, mt, ct⟩

/- A directory tree: named files paired with their on-disk state, and named
subdirectories.  The subdirectory list is a mutually defined list so that
structural recursion and induction over the tree are available. -/
mutual
inductive FSDir where
  | node (files : List (String × FileNode)) (subdirs : FSDirList) : FSDir
inductive FSDirList where
  | nil : FSDirList
  | cons (name : String) (d : FSDir) (tl : FSDirList) : FSDirList
end

/-- Directory names pruned from os.walk descent besides hidden ones
(fim.py line 152). -/
def systemDirs : List String := ["$RECYCLE.BIN", "System Volume Information"]

/-- The per-file body of the scan loop (fim.py lines 154-170): skip hidden
files, the baseline file and ignored files; for the rest obtain the record
via get_file_info and keep it only when a truthy hash is present. -/
def scanFiles (sha : List Nat → String) (ignore : List String) (bfn pfx : String)
    (files : List (String × FileNode)) : List (String × RawRec) :=
  files.filterMap fun fe =>
    if startsWithDot fe.1 ∨ fe.1 = bfn ∨ fe.1 ∈ ignore then none
    else
      match get_file_info sha fe.2 with
      | some r => if r.hash = "" then none else some (joinPath pfx fe.1, rawOfRecord r)
      | none => none

/- The os.walk traversal of scan_directory (fim.py lines 150-175): at each
directory the files are processed, then the walk descends into every subdir
except hidden and system ones, extending the relative-path accumulator. -/
mutual
def scanDir (sha : List Nat → String) (ignore : List String) (bfn pfx : String) :
    FSDir → List (String × RawRec)
  | .node files subdirs =>
      scanFiles sha ignore bfn pfx files ++ scanSubdirs sha ignore bfn pfx subdirs
def scanSubdirs (sha : List Nat → String) (ignore : List String) (bfn pfx : String) :
    FSDirList → List (String × RawRec)
  | .nil => []
  | .cons name d tl =>
      (if startsWithDot name ∨ name ∈ systemDirs then []
       else scanDir sha ignore bfn (joinPath pfx name) d)
      ++ scanSubdirs sha ignore bfn pfx tl
end

/-- Filesystem well-formedness: every name of a file or directory is
nonempty and contains no path separator. -/
def validName (s : String) : Bool :=
  !s.data.isEmpty && !s.data.contains '/'

/- Well-formedness of a whole tree, needed so that distinct tree locations
have distinct relative path strings. -/
mutual
def validDir : FSDir → Bool
  | .node files subdirs => files.all (fun fe => validName fe.1) && validDirs subdirs
def validDirs : FSDirList → Bool
  | .nil => true
  | .cons name d tl => validName name && validDir d && validDirs tl
end

/-- The error classes raised by _validate_directory (fim.py lines 50-70):
ValueError for a missing path, ValueError for a non-directory, and
PermissionError when os.listdir is refused. -/
inductive DirError where
  | doesNotExist : DirError
  | notADirectory : DirError
  | permissionDenied : DirError
deriving DecidableEq

/-- The state of the path handed to scan_directory: missing, present but not
a directory, a directory without read permission, or a readable tree. -/
inductive RootStatus where
  | missing : RootStatus
  | notDir : RootStatus
  | noPerm : RootStatus
  | readable (t : FSDir) : RootStatus

/-- FileIntegrityMonitor._validate_directory (fim.py lines 50-70). -/
def validate_directory : RootStatus → Except DirError FSDir
  | .missing => .error .doesNotExist
  | .notDir => .error .notADirectory
  | .noPerm => .error .permissionDenied
  | .readable t => .ok t

/-- FileIntegrityMonitor.scan_directory (fim.py lines 132-186): a failed
validation is caught at lines 136-140 and the empty mapping is returned;
otherwise the tree is walked from the root with an empty relative path. -/
def scan_directory (sha : List Nat → String) (ignore : List String) (bfn : String)
    (root : RootStatus) : List (String × RawRec) :=
  match validate_directory root with
  | .error _ => []
  | .ok t => scanDir sha ignore bfn "" t

/-- One element of changes-modified (fim.py lines 299-305). -/
structure ModifiedEntry where
  file : String
  old_hash : Json
  new_hash : Json
  old_size : Json
  new_size : Json
deriving DecidableEq

/-- One element of changes-added (fim.py lines 312-316). -/
structure AddedEntry where
  file : String
  hash : Json
  size : Json
deriving DecidableEq

/-- The changes dict built by check_changes: three sequences in insertion
order. -/
structure Changeset where
  modified : List ModifiedEntry
  added : List AddedEntry
  deleted : List String
deriving DecidableEq

/-- Python dict indexing info[k]: the value at the key, or a raised KeyError
carrying the key. -/
def rawGet (r : RawRec) (k : String) : Except String Json :=
  match lookupKey k r with
  | some v => .ok v
  | none => .error k

/-- First loop of check_changes (fim.py lines 290-307) over the baseline
items: ignored basenames are skipped; a path found in the current state with
a differing hash yields a modified entry (hash values read current first,
then baseline, then the sizes, as the source lines evaluate them); a path
absent from the current state yields a deleted entry.  A raised KeyError
propagates. -/
def diffBaseline (ignore : List String) (current : List (String × RawRec)) :
    List (String × RawRec) → Except String (List ModifiedEntry × List String)
  | [] => .ok ([], [])
  | (fp, binfo) :: rest =>
      if basename fp ∈ ignore then diffBaseline ignore current rest
      else
        match alistLookup fp current with
        | some cinfo =>
            match rawGet cinfo "hash" with
            | .error e => .error e
            | .ok nh =>
                match rawGet binfo "hash" with
                | .error e => .error e
                | .ok oh =>
                    if nh ≠ oh then
                      match rawGet binfo "size" with
                      | .error e => .error e
                      | .ok osz =>
                          match rawGet cinfo "size" with
                          | .error e => .error e
                          | .ok nsz =>
                              match diffBaseline ignore current rest with
                              | .error e => .error e
                              | .ok (ms, ds) => .ok (⟨fp, oh, nh, osz, nsz⟩ :: ms, ds)
                    else diffBaseline ignore current rest
        | none =>
            match diffBaseline ignore current rest with
            | .error e => .error e
            | .ok (ms, ds) => .ok (ms, fp :: ds)

/-- Second loop of check_changes (fim.py lines 310-316) over the current
state: paths not in the baseline yield an added entry with the hash and size
read from the current record. -/
def diffCurrent (baseline : List (String × RawRec)) :
    List (String × RawRec) → Except String (List AddedEntry)
  | [] => .ok []
  | (fp, cinfo) :: rest =>
      match alistLookup fp baseline with
      | some _ => diffCurrent baseline rest
      | none =>
          match rawGet cinfo "hash" with
          | .error e => .error e
          | .ok h =>
              match rawGet cinfo "size" with
              | .error e => .error e
              | .ok s =>
                  match diffCurrent baseline rest with
                  | .error e => .error e
                  | .ok tl => .ok (⟨fp, h, s⟩ :: tl)

/-- The body of check_changes after the current state has been scanned:
both loops in order, assembling the changes dict. -/
def diff_except (ignore : List String) (baseline current : List (String × RawRec)) :
    Except String Changeset :=
  match diffBaseline ignore current baseline with
  | .error e => .error e
  | .ok (ms, ds) =>
      match diffCurrent baseline current with
      | .error e => .error e
      | .ok adds => .ok ⟨ms, adds, ds⟩

/-- FileIntegrityMonitor.check_changes (fim.py lines 278-322) given the
scanned current state: on success the changes and the current state are
returned; any exception raised in the body is caught at lines 320-322 and
the empty changes dict with an empty state is returned instead. -/
def check_changes (ignore : List String) (baseline current : List (String × RawRec)) :
    Changeset × List (String × RawRec) :=
  match diff_except ignore baseline current with
  | .ok cs => (cs, current)
  | .error _ => (⟨[], [], []⟩, [])

/-- The error cases of the baseline structure validation in load_baseline
(fim.py lines 250-259), each ValueError message naming the offending path
where one exists. -/
inductive LoadError where
  | notDict : LoadError
  | invalidEntry (path : String) : LoadError
  | missingKeys (path : String) : LoadError
deriving DecidableEq

/-- The required_keys set of load_baseline (fim.py line 257). -/
def requiredKeys : List String := ["hash", "size", "modified", "created"]

/-- The subset test required_keys.issubset(info.keys()) of fim.py line 258. -/
def recordHasRequired (fields : RawRec) : Bool :=
  requiredKeys.all fun k => (lookupKey k fields).isSome

/-- The validation loop of load_baseline (fim.py lines 254-259): each entry
value must be a dict containing the required keys; the first offending entry
raises, naming its path. -/
def loadEntries : JsonFields → Except LoadError (List (String × RawRec))
  | .nil => .ok []
  | .cons path info tl =>
      match info with
      | .obj fields =>
          if recordHasRequired fields then
            match loadEntries tl with
            | .ok r => .ok ((path, fields) :: r)
            | .error e => .error e
          else .error (.missingKeys path)
      | _ => .error (.invalidEntry path)

/-- FileIntegrityMonitor.load_baseline (fim.py lines 233-276) applied to the
parsed JSON document: the top-level value must be a dict (line 251-252), and
every entry must pass the validation loop; the resulting mapping is the
document's own entries. -/
def load_baseline : Json → Except LoadError (List (String × RawRec))
  | .obj entries => loadEntries entries
  | _ => .error .notDict

/-- The JSON document json.dump writes for a baseline mapping
(fim.py lines 200-201). -/
def dumpBaseline (b : List (String × RawRec)) : Json :=
  .obj (objOfList (b.map fun pr => (pr.1, Json.obj pr.2)))

/-- A typed baseline rendered as the mapping of raw records it is held as in
memory and serialized from. -/
def rawBaseline (b : List (String × FileRecord)) : List (String × RawRec) :=
  b.map fun pr => (pr.1, rawOfRecord pr.2)

/-- FileIntegrityMonitor.create_baseline (fim.py lines 188-231): scan, then
refuse to write when the scan is empty (lines 194-196), otherwise write the
serialized mapping.  The result is the returned boolean and the document
written to the baseline file, if any. -/
def create_baseline (sha : List Nat → String) (ignore : List String) (bfn : String)
    (root : RootStatus) : Bool × Option Json :=
  let b := scan_directory sha ignore bfn root
  if b.isEmpty then (false, none)
  else (true, some (dumpBaseline b))

/-! Helper notions used to state and prove the claims. -/

/-- Keys of a mapping, in order. -/
def keys {α : Type} (m : List (String × α)) : List String := m.map Prod.fst

/-- Total field read of a record: the value stored at the key, defaulting to
null when absent (used only under a presence hypothesis). -/
def fieldOf (r : RawRec) (k : String) : Json := (lookupKey k r).getD .null

/-- A record carries the two fields the differ reads. -/
def hasHashSize (r : RawRec) : Bool :=
  (lookupKey "hash" r).isSome && (lookupKey "size" r).isSome

/-- Paths of the modified entries of a changeset. -/
def modifiedPaths (cs : Changeset) : List String := cs.modified.map ModifiedEntry.file

/-- Paths of the added entries of a changeset. -/
def addedPaths (cs : Changeset) : List String := cs.added.map AddedEntry.file

theorem alistLookup_mem {α : Type} {k : String} {v : α} :
    ∀ {m : List (String × α)}, alistLookup k m = some v → (k, v) ∈ m := by
  intro m
  induction m with
  | nil => intro h; simp [alistLookup] at h
  | cons kv tl ih =>
      obtain ⟨k', v'⟩ := kv
      intro h
      by_cases hk : k' = k
      · simp only [alistLookup] at h
        rw [if_pos hk] at h
        injection h with h2
        subst hk
        subst h2
        exact List.mem_cons_self _ _
      · simp only [alistLookup] at h
        rw [if_neg hk] at h
        exact List.mem_cons_of_mem _ (ih h)

theorem mem_alistLookup {α : Type} {k : String} {v : α} :
    ∀ {m : List (String × α)}, (keys m).Nodup → (k, v) ∈ m → alistLookup k m = some v := by
  intro m
  induction m with
  | nil => intro _ h; simp at h
  | cons kv tl ih =>
      obtain ⟨k', v'⟩ := kv
      intro hn h
      rw [keys, List.map_cons, List.nodup_cons] at hn
      rcases List.mem_cons.mp h with heq | htl
      · injection heq with h1 h2
        subst h1
        subst h2
        simp [alistLookup]
      · by_cases hk : k' = k
        · subst hk
          exact absurd (List.mem_map.mpr ⟨(k', v), htl, rfl⟩) hn.1
        · simp only [alistLookup]
          rw [if_neg hk]
          exact ih hn.2 htl

theorem alistLookup_eq_none {α : Type} {k : String} :
    ∀ {m : List (String × α)}, alistLookup k m = none ↔ k ∉ keys m := by
  intro m
  induction m with
  | nil => simp [alistLookup, keys]
  | cons kv tl ih =>
      obtain ⟨k', v'⟩ := kv
      by_cases hk : k' = k
      · simp [alistLookup, hk, keys]
      · simp only [alistLookup]
        rw [if_neg hk]
        simp only [keys, List.map_cons, List.mem_cons]
        rw [ih]
        constructor
        · intro hno hor
          rcases hor with h1 | h2
          · exact hk h1.symm
          · exact hno (by simpa [keys] using h2)
        · intro hno
          rw [keys]
          intro hmem
          exact hno (Or.inr hmem)

theorem alistLookup_exists_of_mem_keys {α : Type} {k : String}
    {m : List (String × α)} (h : k ∈ keys m) : ∃ v, alistLookup k m = some v := by
  cases hv : alistLookup k m with
  | none => exact absurd h (alistLookup_eq_none.mp hv)
  | some v => exact ⟨v, rfl⟩

theorem rawGet_eq_ok {r : RawRec} {k : String} (h : (lookupKey k r).isSome = true) :
    rawGet r k = .ok (fieldOf r k) := by
  cases hv : lookupKey k r with
  | none => rw [hv] at h; simp at h
  | some v => simp [rawGet, fieldOf, hv]

/-- The per-entry classification performed by the first loop of
check_changes on a baseline item, as an optional modified entry. -/
def modOf (ignore : List String) (current : List (String × RawRec))
    (pr : String × RawRec) : Option ModifiedEntry :=
  if basename pr.1 ∈ ignore then none
  else
    match alistLookup pr.1 current with
    | some cinfo =>
        if fieldOf cinfo "hash" ≠ fieldOf pr.2 "hash" then
          some ⟨pr.1, fieldOf pr.2 "hash", fieldOf cinfo "hash",
                fieldOf pr.2 "size", fieldOf cinfo "size"⟩
        else none
    | none => none

/-- The per-entry classification performed by the first loop of
check_changes on a baseline item, as an optional deleted path. -/
def delOf (ignore : List String) (current : List (String × RawRec))
    (pr : String × RawRec) : Option String :=
  if basename pr.1 ∈ ignore then none
  else
    match alistLookup pr.1 current with
    | some _ => none
    | none => some pr.1

/-- The per-entry classification performed by the second loop of
check_changes on a current item, as an optional added entry. -/
def addOf (baseline : List (String × RawRec)) (pr : String × RawRec) :
    Option AddedEntry :=
  match alistLookup pr.1 baseline with
  | some _ => none
  | none => some ⟨pr.1, fieldOf pr.2 "hash", fieldOf pr.2 "size"⟩

theorem hasHashSize_hash {r : RawRec} (h : hasHashSize r = true) :
    (lookupKey "hash" r).isSome = true := by
  rw [hasHashSize, Bool.and_eq_true] at h
  exact h.1

theorem hasHashSize_size {r : RawRec} (h : hasHashSize r = true) :
    (lookupKey "size" r).isSome = true := by
  rw [hasHashSize, Bool.and_eq_true] at h
  exact h.2

theorem diffBaseline_ok {ignore : List String} {current : List (String × RawRec)} :
    ∀ {b : List (String × RawRec)},
    (∀ pr ∈ b, hasHashSize pr.2 = true) →
    (∀ pr ∈ current, hasHashSize pr.2 = true) →
    diffBaseline ignore current b =
      .ok (b.filterMap (modOf ignore current), b.filterMap (delOf ignore current)) := by
  intro b
  induction b with
  | nil => intro _ _; rfl
  | cons pr tl ih =>
      obtain ⟨fp, binfo⟩ := pr
      intro hB hC
      have hb : hasHashSize binfo = true := hB (fp, binfo) (List.mem_cons_self _ _)
      have htl : ∀ pr ∈ tl, hasHashSize pr.2 = true :=
        fun pr h => hB pr (List.mem_cons_of_mem _ h)
      by_cases hig : basename fp ∈ ignore
      · simp [diffBaseline, hig, modOf, delOf, ih htl hC]
      · cases hcur : alistLookup fp current with
        | none => simp [diffBaseline, hig, hcur, modOf, delOf, ih htl hC]
        | some cinfo =>
            have hc : hasHashSize cinfo = true := hC _ (alistLookup_mem hcur)
            have rg1 : rawGet cinfo "hash" = .ok (fieldOf cinfo "hash") :=
              rawGet_eq_ok (hasHashSize_hash hc)
            have rg2 : rawGet binfo "hash" = .ok (fieldOf binfo "hash") :=
              rawGet_eq_ok (hasHashSize_hash hb)
            have rg3 : rawGet binfo "size" = .ok (fieldOf binfo "size") :=
              rawGet_eq_ok (hasHashSize_size hb)
            have rg4 : rawGet cinfo "size" = .ok (fieldOf cinfo "size") :=
              rawGet_eq_ok (hasHashSize_size hc)
            by_cases hne : fieldOf cinfo "hash" = fieldOf binfo "hash"
            · simp [diffBaseline, hig, hcur, rg1, rg2, hne, modOf, delOf, ih htl hC]
            · simp [diffBaseline, hig, hcur, rg1, rg2, rg3, rg4, hne, modOf, delOf,
                ih htl hC]

theorem diffCurrent_ok {baseline : List (String × RawRec)} :
    ∀ {current : List (String × RawRec)},
    (∀ pr ∈ current, hasHashSize pr.2 = true) →
    diffCurrent baseline current = .ok (current.filterMap (addOf baseline)) := by
  intro current
  induction current with
  | nil => intro _; rfl
  | cons pr tl ih =>
      obtain ⟨fp, cinfo⟩ := pr
      intro hC
      have hc : hasHashSize cinfo = true := hC (fp, cinfo) (List.mem_cons_self _ _)
      have htl : ∀ pr ∈ tl, hasHashSize pr.2 = true :=
        fun pr h => hC pr (List.mem_cons_of_mem _ h)
      cases hbl : alistLookup fp baseline with
      | some b => simp [diffCurrent, hbl, addOf, ih htl]
      | none =>
          have rg1 : rawGet cinfo "hash" = .ok (fieldOf cinfo "hash") :=
            rawGet_eq_ok (hasHashSize_hash hc)
          have rg2 : rawGet cinfo "size" = .ok (fieldOf cinfo "size") :=
            rawGet_eq_ok (hasHashSize_size hc)
          simp [diffCurrent, hbl, rg1, rg2, addOf, ih htl]

theorem check_changes_closed {ignore : List String} {B C : List (String × RawRec)}
    (hB : ∀ pr ∈ B, hasHashSize pr.2 = true)
    (hC : ∀ pr ∈ C, hasHashSize pr.2 = true) :
    check_changes ignore B C =
      (⟨B.filterMap (modOf ignore C), C.filterMap (addOf B),
        B.filterMap (delOf ignore C)⟩, C) := by
  rw [check_changes, diff_except, diffBaseline_ok hB hC, diffCurrent_ok hC]

theorem mem_modified_iff {g : List String} {B C : List (String × RawRec)}
    (hBn : (keys B).Nodup) {fp : String} {oh nh osz nsz : Json} :
    (⟨fp, oh, nh, osz, nsz⟩ : ModifiedEntry) ∈ B.filterMap (modOf g C) ↔
      basename fp ∉ g ∧
      ∃ b c, alistLookup fp B = some b ∧ alistLookup fp C = some c ∧
        oh = fieldOf b "hash" ∧ nh = fieldOf c "hash" ∧
        osz = fieldOf b "size" ∧ nsz = fieldOf c "size" ∧ nh ≠ oh := by
  rw [List.mem_filterMap]
  constructor
  · rintro ⟨⟨fp', b⟩, hmem, hmod⟩
    simp only [modOf] at hmod
    split at hmod
    · exact absurd hmod (by simp)
    · rename_i hig
      split at hmod
      · rename_i cinfo hcur
        split at hmod
        · rename_i hne
          injection hmod with he
          obtain ⟨rfl, rfl, rfl, rfl, rfl⟩ :
              fp' = fp ∧ fieldOf b "hash" = oh ∧ fieldOf cinfo "hash" = nh ∧
              fieldOf b "size" = osz ∧ fieldOf cinfo "size" = nsz := by
            injection he with h1 h2 h3 h4 h5
            exact ⟨h1, h2, h3, h4, h5⟩
          exact ⟨hig, b, cinfo, mem_alistLookup hBn hmem, hcur,
            rfl, rfl, rfl, rfl, hne⟩
        · exact absurd hmod (by simp)
      · exact absurd hmod (by simp)
  · rintro ⟨hig, b, c, hlb, hlc, rfl, rfl, rfl, rfl, hne⟩
    refine ⟨(fp, b), alistLookup_mem hlb, ?_⟩
    simp [modOf, hig, hlc, hne]

theorem mem_deleted_iff {g : List String} {B C : List (String × RawRec)}
    (hBn : (keys B).Nodup) {fp : String} :
    fp ∈ B.filterMap (delOf g C) ↔
      basename fp ∉ g ∧ (∃ b, alistLookup fp B = some b) ∧
      alistLookup fp C = none := by
  rw [List.mem_filterMap]
  constructor
  · rintro ⟨⟨fp', b⟩, hmem, hdel⟩
    simp only [delOf] at hdel
    split at hdel
    · exact absurd hdel (by simp)
    · rename_i hig
      split at hdel
      · exact absurd hdel (by simp)
      · rename_i hcur
        injection hdel with he
        subst he
        exact ⟨hig, ⟨b, mem_alistLookup hBn hmem⟩, hcur⟩
  · rintro ⟨hig, ⟨b, hlb⟩, hlc⟩
    refine ⟨(fp, b), alistLookup_mem hlb, ?_⟩
    simp [delOf, hig, hlc]

theorem mem_added_iff {B C : List (String × RawRec)}
    (hCn : (keys C).Nodup) {fp : String} {h s : Json} :
    (⟨fp, h, s⟩ : AddedEntry) ∈ C.filterMap (addOf B) ↔
      alistLookup fp B = none ∧
      ∃ c, alistLookup fp C = some c ∧ h = fieldOf c "hash" ∧ s = fieldOf c "size" := by
  rw [List.mem_filterMap]
  constructor
  · rintro ⟨⟨fp', c⟩, hmem, hadd⟩
    simp only [addOf] at hadd
    split at hadd
    · exact absurd hadd (by simp)
    · rename_i hbl
      injection hadd with he
      obtain ⟨rfl, rfl, rfl⟩ :
          fp' = fp ∧ fieldOf c "hash" = h ∧ fieldOf c "size" = s := by
        injection he with h1 h2 h3
        exact ⟨h1, h2, h3⟩
      exact ⟨hbl, c, mem_alistLookup hCn hmem, rfl, rfl⟩
  · rintro ⟨hbl, c, hlc, rfl, rfl⟩
    refine ⟨(fp, c), alistLookup_mem hlc, ?_⟩
    simp [addOf, hbl]

/-- C1: for every baseline mapping and every current-scan mapping (with
unique keys and records carrying the fields the differ reads, as every
scanned or validated-loaded mapping does), check_changes classifies paths
exactly as the three steps of the spec state: a baseline path whose basename
is not in the ignore set yields a modified entry with the old and new hash
and old and new size exactly when it is present in the current mapping with
a differing hash, and a deleted entry exactly when it is absent from the
current mapping; a current path yields an added entry with its hash and size
exactly when it is absent from the baseline; and a path present in both
mappings with equal hashes produces no entry in any sequence. -/
theorem check_changes_classification (user : List String)
    (B C : List (String × RawRec))
    (hBn : (keys B).Nodup) (hCn : (keys C).Nodup)
    (hB : ∀ pr ∈ B, hasHashSize pr.2 = true)
    (hC : ∀ pr ∈ C, hasHashSize pr.2 = true) :
    (check_changes (ignoreFiles user) B C).2 = C ∧
    (∀ fp oh nh osz nsz,
      (⟨fp, oh, nh, osz, nsz⟩ : ModifiedEntry)
          ∈ (check_changes (ignoreFiles user) B C).1.modified ↔
        basename fp ∉ ignoreFiles user ∧
        ∃ b c, alistLookup fp B = some b ∧ alistLookup fp C = some c ∧
          oh = fieldOf b "hash" ∧ nh = fieldOf c "hash" ∧
          osz = fieldOf b "size" ∧ nsz = fieldOf c "size" ∧ nh ≠ oh) ∧
    (∀ fp, fp ∈ (check_changes (ignoreFiles user) B C).1.deleted ↔
        basename fp ∉ ignoreFiles user ∧ (∃ b, alistLookup fp B = some b) ∧
        alistLookup fp C = none) ∧
    (∀ fp h s,
      (⟨fp, h, s⟩ : AddedEntry) ∈ (check_changes (ignoreFiles user) B C).1.added ↔
        alistLookup fp B = none ∧
        ∃ c, alistLookup fp C = some c ∧ h = fieldOf c "hash" ∧ s = fieldOf c "size") ∧
    (∀ fp b c, alistLookup fp B = some b → alistLookup fp C = some c →
        fieldOf b "hash" = fieldOf c "hash" →
        fp ∉ modifiedPaths (check_changes (ignoreFiles user) B C).1 ∧
        fp ∉ addedPaths (check_changes (ignoreFiles user) B C).1 ∧
        fp ∉ (check_changes (ignoreFiles user) B C).1.deleted) := by
  rw [check_changes_closed hB hC]
  refine ⟨rfl, fun fp oh nh osz nsz => mem_modified_iff hBn,
    fun fp => mem_deleted_iff hBn, fun fp h s => mem_added_iff hCn, ?_⟩
  intro fp b c hlb hlc heq
  refine ⟨?_, ?_, ?_⟩
  · intro hmem
    rw [modifiedPaths, List.mem_map] at hmem
    obtain ⟨e, hemem, hefile⟩ := hmem
    obtain ⟨f', oh', nh', osz', nsz'⟩ := e
    obtain rfl : f' = fp := hefile
    obtain ⟨-, b', c', hlb', hlc', hoh, hnh, -, -, hne⟩ :=
      (mem_modified_iff (g := ignoreFiles user) hBn).mp hemem
    rw [hlb] at hlb'
    rw [hlc] at hlc'
    injection hlb' with hb'
    injection hlc' with hc'
    subst hb'
    subst hc'
    exact hne (by rw [hnh, hoh]; exact heq.symm)
  · intro hmem
    rw [addedPaths, List.mem_map] at hmem
    obtain ⟨e, hemem, hefile⟩ := hmem
    obtain ⟨f', h', s'⟩ := e
    obtain rfl : f' = fp := hefile
    obtain ⟨hnone, -⟩ := (mem_added_iff (B := B) hCn).mp hemem
    rw [hlb] at hnone
    exact Option.noConfusion hnone
  · intro hmem
    obtain ⟨-, -, hnone⟩ := (mem_deleted_iff (g := ignoreFiles user) hBn).mp hmem
    rw [hlc] at hnone
    exact Option.noConfusion hnone

/-- Sample baseline mapping: the concrete scenario of the spec, files a.txt
and b.txt. -/
def sampleBase : List (String × RawRec) :=
  [("a.txt", rawOfRecord ⟨"h1", 5, 1, 2⟩), ("b.txt", rawOfRecord ⟨"h2", 5, 1, 2⟩)]

/-- Sample current-scan mapping: a.txt modified, b.txt deleted, c.txt
added. -/
def sampleCur : List (String × RawRec) :=
  [("a.txt", rawOfRecord ⟨"H1", 5, 3, 2⟩), ("c.txt", rawOfRecord ⟨"h3", 3, 9, 9⟩)]

/-- Witness for the classification theorem at the concrete scenario: its
hypotheses hold there and the theorem yields the expected modified entry for
a.txt. -/
theorem check_changes_classification_witness :
    ((keys sampleBase).Nodup ∧ (keys sampleCur).Nodup ∧
     (∀ pr ∈ sampleBase, hasHashSize pr.2 = true) ∧
     (∀ pr ∈ sampleCur, hasHashSize pr.2 = true)) ∧
    (⟨"a.txt", .str "h1", .str "H1", .num 5, .num 5⟩ : ModifiedEntry)
        ∈ (check_changes (ignoreFiles []) sampleBase sampleCur).1.modified :=
  ⟨⟨by decide, by decide, by decide, by decide⟩,
   ((check_changes_classification [] sampleBase sampleCur (by decide) (by decide)
        (by decide) (by decide)).2.1 "a.txt" (.str "h1") (.str "H1") (.num 5)
        (.num 5)).mpr
     ⟨by decide, rawOfRecord ⟨"h1", 5, 1, 2⟩, rawOfRecord ⟨"H1", 5, 3, 2⟩,
       by rfl, by rfl, by rfl, by rfl, by rfl, by rfl, by decide⟩⟩

theorem mem_map_file_modified {g : List String} {B C : List (String × RawRec)}
    (hBn : (keys B).Nodup) {fp : String} :
    fp ∈ (B.filterMap (modOf g C)).map ModifiedEntry.file ↔
      basename fp ∉ g ∧
      ∃ b c, alistLookup fp B = some b ∧ alistLookup fp C = some c ∧
        fieldOf c "hash" ≠ fieldOf b "hash" := by
  rw [List.mem_map]
  constructor
  · rintro ⟨e, hemem, hefile⟩
    obtain ⟨f', oh', nh', osz', nsz'⟩ := e
    obtain rfl : f' = fp := hefile
    obtain ⟨hig, b, c, hlb, hlc, hoh, hnh, -, -, hne⟩ := mem_modified_iff hBn |>.mp hemem
    exact ⟨hig, b, c, hlb, hlc, by rw [← hoh, ← hnh]; exact hne⟩
  · rintro ⟨hig, b, c, hlb, hlc, hne⟩
    refine ⟨⟨fp, fieldOf b "hash", fieldOf c "hash", fieldOf b "size", fieldOf c "size"⟩,
      ?_, rfl⟩
    exact (mem_modified_iff hBn).mpr ⟨hig, b, c, hlb, hlc, rfl, rfl, rfl, rfl, hne⟩

theorem mem_map_file_added {B C : List (String × RawRec)}
    (hCn : (keys C).Nodup) {fp : String} :
    fp ∈ (C.filterMap (addOf B)).map AddedEntry.file ↔
      alistLookup fp B = none ∧ ∃ c, alistLookup fp C = some c := by
  rw [List.mem_map]
  constructor
  · rintro ⟨e, hemem, hefile⟩
    obtain ⟨f', h', s'⟩ := e
    obtain rfl : f' = fp := hefile
    obtain ⟨hbl, c, hlc, -, -⟩ := (mem_added_iff hCn).mp hemem
    exact ⟨hbl, c, hlc⟩
  · rintro ⟨hbl, c, hlc⟩
    refine ⟨⟨fp, fieldOf c "hash", fieldOf c "size"⟩, ?_, rfl⟩
    exact (mem_added_iff hCn).mpr ⟨hbl, c, hlc, rfl, rfl⟩

/-- C2 (counterexample to the claim as stated): with the always-ignored log
filename present as a baseline key and absent from the current mapping, the
path belongs to the union of the keys and is not an equal-hash member of
both mappings, yet all three sequences of the produced Changeset are empty,
so the path appears in none of them rather than in exactly one. -/
theorem check_changes_partition_counterexample :
    "fim.log" ∈ keys [("fim.log", rawOfRecord ⟨"h1", 5, 1, 2⟩)] ∧
    alistLookup "fim.log" ([] : List (String × RawRec)) = none ∧
    (check_changes (ignoreFiles [])
        [("fim.log", rawOfRecord ⟨"h1", 5, 1, 2⟩)] []).1.modified = [] ∧
    (check_changes (ignoreFiles [])
        [("fim.log", rawOfRecord ⟨"h1", 5, 1, 2⟩)] []).1.added = [] ∧
    (check_changes (ignoreFiles [])
        [("fim.log", rawOfRecord ⟨"h1", 5, 1, 2⟩)] []).1.deleted = [] ∧
    ¬ ("fim.log" ∈ modifiedPaths (check_changes (ignoreFiles [])
          [("fim.log", rawOfRecord ⟨"h1", 5, 1, 2⟩)] []).1 ∨
       "fim.log" ∈ addedPaths (check_changes (ignoreFiles [])
          [("fim.log", rawOfRecord ⟨"h1", 5, 1, 2⟩)] []).1 ∨
       "fim.log" ∈ (check_changes (ignoreFiles [])
          [("fim.log", rawOfRecord ⟨"h1", 5, 1, 2⟩)] []).1.deleted) := by
  refine ⟨by decide, rfl, rfl, rfl, rfl, ?_⟩
  intro h
  rcases h with h | h | h <;> simp [modifiedPaths, addedPaths, check_changes,
    diff_except, diffBaseline, diffCurrent, basename, ignoreFiles] at h

/-- C2 (amended): under the same well-formedness hypotheses, no path appears
in more than one of the three sequences, and every path of the union of the
keys that is not an equal-hash member of both mappings appears in exactly
one sequence, except for a baseline path whose basename is in the ignore
set: such a path is skipped by the baseline loop (and, being a baseline
key, is never emitted as added), so it appears in no sequence. -/
theorem check_changes_partition (user : List String)
    (B C : List (String × RawRec))
    (hBn : (keys B).Nodup) (hCn : (keys C).Nodup)
    (hB : ∀ pr ∈ B, hasHashSize pr.2 = true)
    (hC : ∀ pr ∈ C, hasHashSize pr.2 = true) :
    (∀ fp, ¬ (fp ∈ modifiedPaths (check_changes (ignoreFiles user) B C).1 ∧
              fp ∈ addedPaths (check_changes (ignoreFiles user) B C).1)) ∧
    (∀ fp, ¬ (fp ∈ modifiedPaths (check_changes (ignoreFiles user) B C).1 ∧
              fp ∈ (check_changes (ignoreFiles user) B C).1.deleted)) ∧
    (∀ fp, ¬ (fp ∈ addedPaths (check_changes (ignoreFiles user) B C).1 ∧
              fp ∈ (check_changes (ignoreFiles user) B C).1.deleted)) ∧
    (∀ fp, (fp ∈ keys B ∨ fp ∈ keys C) →
      ¬ (∃ b c, alistLookup fp B = some b ∧ alistLookup fp C = some c ∧
           fieldOf b "hash" = fieldOf c "hash") →
      ¬ (fp ∈ keys B ∧ basename fp ∈ ignoreFiles user) →
      (fp ∈ modifiedPaths (check_changes (ignoreFiles user) B C).1 ∧
         fp ∉ addedPaths (check_changes (ignoreFiles user) B C).1 ∧
         fp ∉ (check_changes (ignoreFiles user) B C).1.deleted) ∨
      (fp ∉ modifiedPaths (check_changes (ignoreFiles user) B C).1 ∧
         fp ∈ addedPaths (check_changes (ignoreFiles user) B C).1 ∧
         fp ∉ (check_changes (ignoreFiles user) B C).1.deleted) ∨
      (fp ∉ modifiedPaths (check_changes (ignoreFiles user) B C).1 ∧
         fp ∉ addedPaths (check_changes (ignoreFiles user) B C).1 ∧
         fp ∈ (check_changes (ignoreFiles user) B C).1.deleted)) := by
  rw [check_changes_closed hB hC]
  simp only [modifiedPaths, addedPaths]
  refine ⟨?_, ?_, ?_, ?_⟩
  · rintro fp ⟨hmod, hadd⟩
    obtain ⟨-, b, c, hlb, -, -⟩ := (mem_map_file_modified hBn).mp hmod
    obtain ⟨hnone, -⟩ := (mem_map_file_added hCn).mp hadd
    rw [hlb] at hnone
    exact Option.noConfusion hnone
  · rintro fp ⟨hmod, hdel⟩
    obtain ⟨-, b, c, -, hlc, -⟩ := (mem_map_file_modified hBn).mp hmod
    obtain ⟨-, -, hnone⟩ := (mem_deleted_iff (g := ignoreFiles user) hBn).mp hdel
    rw [hlc] at hnone
    exact Option.noConfusion hnone
  · rintro fp ⟨hadd, hdel⟩
    obtain ⟨hnone, -⟩ := (mem_map_file_added hCn).mp hadd
    obtain ⟨-, ⟨b, hlb⟩, -⟩ := (mem_deleted_iff (g := ignoreFiles user) hBn).mp hdel
    rw [hlb] at hnone
    exact Option.noConfusion hnone
  · intro fp hunion hneq hnig
    by_cases hfb : fp ∈ keys B
    · have hig : basename fp ∉ ignoreFiles user := fun h => hnig ⟨hfb, h⟩
      obtain ⟨b, hlb⟩ := alistLookup_exists_of_mem_keys hfb
      cases hlc : alistLookup fp C with
      | none =>
          refine Or.inr (Or.inr ⟨?_, ?_, ?_⟩)
          · intro hmod
            obtain ⟨-, b', c', -, hlc', -⟩ := (mem_map_file_modified hBn).mp hmod
            rw [hlc] at hlc'
            exact Option.noConfusion hlc'
          · intro hadd
            obtain ⟨hnone, -⟩ := (mem_map_file_added hCn).mp hadd
            rw [hlb] at hnone
            exact Option.noConfusion hnone
          · exact (mem_deleted_iff (g := ignoreFiles user) hBn).mpr ⟨hig, ⟨b, hlb⟩, hlc⟩
      | some c =>
          have hne : fieldOf c "hash" ≠ fieldOf b "hash" :=
            fun h => hneq ⟨b, c, hlb, hlc, h.symm⟩
          refine Or.inl ⟨?_, ?_, ?_⟩
          · exact (mem_map_file_modified hBn).mpr ⟨hig, b, c, hlb, hlc, hne⟩
          · intro hadd
            obtain ⟨hnone, -⟩ := (mem_map_file_added hCn).mp hadd
            rw [hlb] at hnone
            exact Option.noConfusion hnone
          · intro hdel
            obtain ⟨-, -, hnone⟩ := (mem_deleted_iff (g := ignoreFiles user) hBn).mp hdel
            rw [hlc] at hnone
            exact Option.noConfusion hnone
    · have hfc : fp ∈ keys C := by
        rcases hunion with h | h
        · exact absurd h hfb
        · exact h
      have hlb : alistLookup fp B = none := alistLookup_eq_none.mpr hfb
      obtain ⟨c, hlc⟩ := alistLookup_exists_of_mem_keys hfc
      refine Or.inr (Or.inl ⟨?_, ?_, ?_⟩)
      · intro hmod
        obtain ⟨-, b', c', hlb', -, -⟩ := (mem_map_file_modified hBn).mp hmod
        rw [hlb] at hlb'
        exact Option.noConfusion hlb'
      · exact (mem_map_file_added hCn).mpr ⟨hlb, c, hlc⟩
      · intro hdel
        obtain ⟨-, ⟨b', hlb'⟩, -⟩ := (mem_deleted_iff (g := ignoreFiles user) hBn).mp hdel
        rw [hlb] at hlb'
        exact Option.noConfusion hlb'

/-- Witness for the amended partition theorem: its hypotheses hold at the
concrete scenario and the path of the deleted file b.txt lands in exactly
the deleted sequence. -/
theorem check_changes_partition_witness :
    ((keys sampleBase).Nodup ∧ (keys sampleCur).Nodup ∧
     (∀ pr ∈ sampleBase, hasHashSize pr.2 = true) ∧
     (∀ pr ∈ sampleCur, hasHashSize pr.2 = true) ∧
     ("b.txt" ∈ keys sampleBase ∨ "b.txt" ∈ keys sampleCur) ∧
     ¬ (∃ b c, alistLookup "b.txt" sampleBase = some b ∧
          alistLookup "b.txt" sampleCur = some c ∧
          fieldOf b "hash" = fieldOf c "hash") ∧
     ¬ ("b.txt" ∈ keys sampleBase ∧ basename "b.txt" ∈ ignoreFiles [])) ∧
    (("b.txt" ∈ modifiedPaths (check_changes (ignoreFiles []) sampleBase sampleCur).1 ∧
        "b.txt" ∉ addedPaths (check_changes (ignoreFiles []) sampleBase sampleCur).1 ∧
        "b.txt" ∉ (check_changes (ignoreFiles []) sampleBase sampleCur).1.deleted) ∨
     ("b.txt" ∉ modifiedPaths (check_changes (ignoreFiles []) sampleBase sampleCur).1 ∧
        "b.txt" ∈ addedPaths (check_changes (ignoreFiles []) sampleBase sampleCur).1 ∧
        "b.txt" ∉ (check_changes (ignoreFiles []) sampleBase sampleCur).1.deleted) ∨
     ("b.txt" ∉ modifiedPaths (check_changes (ignoreFiles []) sampleBase sampleCur).1 ∧
        "b.txt" ∉ addedPaths (check_changes (ignoreFiles []) sampleBase sampleCur).1 ∧
        "b.txt" ∈ (check_changes (ignoreFiles []) sampleBase sampleCur).1.deleted)) :=
  ⟨⟨by decide, by decide, by decide, by decide, by decide,
    fun h => by
      obtain ⟨b, c, -, hlc, -⟩ := h
      exact Option.noConfusion (by rw [← hlc]; rfl : (none : Option RawRec) = some c),
    by decide⟩,
   (check_changes_partition [] sampleBase sampleCur (by decide) (by decide)
      (by decide) (by decide)).2.2.2 "b.txt" (by decide)
     (fun h => by
       obtain ⟨b, c, -, hlc, -⟩ := h
       exact Option.noConfusion (by rw [← hlc]; rfl : (none : Option RawRec) = some c))
     (by decide)⟩

theorem alistLookup_map {α β : Type} (f : α → β) (k : String) :
    ∀ (m : List (String × α)),
    alistLookup k (m.map fun pr => (pr.1, f pr.2)) = (alistLookup k m).map f := by
  intro m
  induction m with
  | nil => rfl
  | cons kv tl ih =>
      by_cases h : kv.1 = k
      · simp [alistLookup, h]
      · simp [alistLookup, h, ih]

theorem recordHasRequired_rawOfRecord (r : FileRecord) :
    recordHasRequired (rawOfRecord r) = true := rfl

theorem loadEntries_rawBaseline : ∀ B : List (String × FileRecord),
    loadEntries (objOfList ((rawBaseline B).map fun pr => (pr.1, Json.obj pr.2))) =
      .ok (rawBaseline B) := by
  intro B
  induction B with
  | nil => rfl
  | cons pr tl ih =>
      obtain ⟨p, r⟩ := pr
      simp only [rawBaseline, List.map_cons, objOfList, loadEntries,
        recordHasRequired_rawOfRecord]
      rw [show (objOfList ((rawBaseline tl).map fun pr => (pr.1, Json.obj pr.2)))
          = objOfList (List.map (fun pr => (pr.1, Json.obj pr.2))
              (List.map (fun pr => (pr.1, rawOfRecord pr.2)) tl)) from rfl] at ih
      rw [ih]
      simp [rawBaseline]

/-- C3: for every typed baseline mapping whose records carry the four fields
hash (string), size (integer), modified and created (numbers), serializing
it the way create_baseline writes it and validating it back the way
load_baseline reads it yields exactly the same mapping: the same keys in the
same order, and for each key a record with the same four field values. -/
theorem save_load_roundtrip (B : List (String × FileRecord)) :
    load_baseline (dumpBaseline (rawBaseline B)) = .ok (rawBaseline B) ∧
    keys (rawBaseline B) = keys B ∧
    (∀ p r, alistLookup p B = some r →
      ∃ m, alistLookup p (rawBaseline B) = some m ∧
        lookupKey "hash" m = some (.str r.hash) ∧
        lookupKey "size" m = some (.num (r.size : Rat)) ∧
        lookupKey "modified" m = some (.num r.modified) ∧
        lookupKey "created" m = some (.num r.created)) := by
  refine ⟨?_, ?_, ?_⟩
  · rw [dumpBaseline, load_baseline]
    exact loadEntries_rawBaseline B
  · simp [keys, rawBaseline]
  · intro p r h
    refine ⟨rawOfRecord r, ?_, rfl, rfl, rfl, rfl⟩
    rw [rawBaseline, alistLookup_map, h]
    rfl

/-- Sample typed baseline for instantiating the round-trip theorem. -/
def sampleTyped : List (String × FileRecord) :=
  [("a.txt", ⟨"h1", 5, 1, 2⟩), ("b.txt", ⟨"h2", 7, 3, 4⟩)]

/-- Witness running the round trip on a concrete two-entry baseline,
including the per-key field equalities of its second component. -/
theorem save_load_roundtrip_witness :
    load_baseline (dumpBaseline (rawBaseline sampleTyped)) =
      .ok (rawBaseline sampleTyped) ∧
    ∃ m, alistLookup "b.txt" (rawBaseline sampleTyped) = some m ∧
      lookupKey "hash" m = some (.str "h2") ∧
      lookupKey "size" m = some (.num (7 : Rat)) ∧
      lookupKey "modified" m = some (.num (3 : Rat)) ∧
      lookupKey "created" m = some (.num (4 : Rat)) :=
  ⟨(save_load_roundtrip sampleTyped).1,
   (save_load_roundtrip sampleTyped).2.2 "b.txt" ⟨"h2", 7, 3, 4⟩ (by rfl)⟩

/-- Relative path of a file reached from the accumulated relative path pfx
through the directory components comps down to the filename name. -/
def pathFrom (pfx : String) (comps : List String) (name : String) : String :=
  joinPath (comps.foldl joinPath pfx) name

/-- Simultaneous induction over the mutually inductive directory tree. -/
theorem fsInduction (P : FSDir → Prop) (Q : FSDirList → Prop)
    (h : ∀ fs ss, Q ss → P (.node fs ss))
    (h0 : Q .nil)
    (h1 : ∀ nm d tl, P d → Q tl → Q (.cons nm d tl)) :
    (∀ t, P t) ∧ (∀ l, Q l) :=
  ⟨fun t => @FSDir.rec P Q h h0 h1 t, fun l => @FSDirList.rec P Q h h0 h1 l⟩

theorem scanDir_shape (sha : List Nat → String) (ig : List String) (bfn : String) :
    (∀ t, ∀ pfx p r, (p, r) ∈ scanDir sha ig bfn pfx t →
      ∃ comps name rec, p = pathFrom pfx comps name ∧ r = rawOfRecord rec ∧
        rec.hash ≠ "" ∧ startsWithDot name = false ∧ name ≠ bfn ∧ name ∉ ig ∧
        (∀ c ∈ comps, startsWithDot c = false) ∧
        (validDir t = true → validName name = true ∧
          ∀ c ∈ comps, validName c = true)) ∧
    (∀ l, ∀ pfx p r, (p, r) ∈ scanSubdirs sha ig bfn pfx l →
      ∃ comps name rec, p = pathFrom pfx comps name ∧ r = rawOfRecord rec ∧
        rec.hash ≠ "" ∧ startsWithDot name = false ∧ name ≠ bfn ∧ name ∉ ig ∧
        (∀ c ∈ comps, startsWithDot c = false) ∧
        (validDirs l = true → validName name = true ∧
          ∀ c ∈ comps, validName c = true)) := by
  refine fsInduction _ _ ?_ ?_ ?_
  · intro fs ss hQ pfx p r hmem
    rw [scanDir] at hmem
    rcases List.mem_append.mp hmem with hf | hs
    · rw [scanFiles] at hf
      obtain ⟨fe, hfe, heq⟩ := List.mem_filterMap.mp hf
      obtain ⟨nm, fn⟩ := fe
      split at heq
      · exact absurd heq (by simp)
      · rename_i hcond
        push_neg at hcond
        obtain ⟨hdot, hbfn, hig⟩ := hcond
        split at heq
        · rename_i rec hrec
          split at heq
          · exact absurd heq (by simp)
          · rename_i hhash
            obtain ⟨rfl, rfl⟩ : joinPath pfx nm = p ∧ rawOfRecord rec = r := by
              injection heq with h1
              injection h1 with h2 h3
              exact ⟨h2, h3⟩
            refine ⟨[], nm, rec, rfl, rfl, hhash, ?_, hbfn, hig, by simp, ?_⟩
            · exact Bool.not_eq_true _ ▸ eq_false_of_ne_true hdot
            · intro hv
              rw [validDir, Bool.and_eq_true, List.all_eq_true] at hv
              exact ⟨hv.1 (nm, fn) hfe, by simp⟩
        · exact absurd heq (by simp)
    · obtain ⟨comps, name, rec, hp, hr, hh, hd, hb, hg, hc, hval⟩ := hQ pfx p r hs
      refine ⟨comps, name, rec, hp, hr, hh, hd, hb, hg, hc, ?_⟩
      intro hv
      rw [validDir, Bool.and_eq_true] at hv
      exact hval hv.2
  · intro pfx p r hmem
    rw [scanSubdirs] at hmem
    simp at hmem
  · intro nm d tl hPd hQtl pfx p r hmem
    rw [scanSubdirs] at hmem
    rcases List.mem_append.mp hmem with hl | hr
    · split at hl
      · exact absurd hl (by simp)
      · rename_i hkeep
        push_neg at hkeep
        obtain ⟨comps, name, rec, hp, hrr, hh, hd, hb, hg, hc, hval⟩ :=
          hPd (joinPath pfx nm) p r hl
        refine ⟨nm :: comps, name, rec, hp, hrr, hh, hd, hb, hg, ?_, ?_⟩
        · intro c hcmem
          rcases List.mem_cons.mp hcmem with rfl | hcm
          · exact Bool.not_eq_true _ ▸ eq_false_of_ne_true hkeep.1
          · exact hc c hcm
        · intro hv
          rw [validDirs, Bool.and_eq_true, Bool.and_eq_true] at hv
          obtain ⟨⟨hvn, hvd⟩, hvt⟩ := hv
          obtain ⟨h1, h2⟩ := hval hvd
          refine ⟨h1, ?_⟩
          intro c hcmem
          rcases List.mem_cons.mp hcmem with rfl | hcm
          · exact hvn
          · exact h2 c hcm
    · obtain ⟨comps, name, rec, hp, hrr, hh, hd, hb, hg, hc, hval⟩ := hQtl pfx p r hr
      refine ⟨comps, name, rec, hp, hrr, hh, hd, hb, hg, hc, ?_⟩
      intro hv
      rw [validDirs, Bool.and_eq_true, Bool.and_eq_true] at hv
      exact hval hv.2

/-- C5: every record stored in the mapping returned by scan_directory is
the serialized form of a FileRecord whose hash was successfully computed and
is nonempty; in particular the value at its hash field is a nonempty string,
so a file whose hashing returned the skip-signal is never present with a
null hash, only absent. -/
theorem scan_records_have_hash (sha : List Nat → String) (ig : List String)
    (bfn : String) (root : RootStatus) (p : String) (r : RawRec)
    (h : alistLookup p (scan_directory sha ig bfn root) = some r) :
    ∃ rec : FileRecord, r = rawOfRecord rec ∧ rec.hash ≠ "" ∧
      lookupKey "hash" r = some (.str rec.hash) := by
  rw [scan_directory] at h
  cases root with
  | missing => simp [validate_directory, alistLookup] at h
  | notDir => simp [validate_directory, alistLookup] at h
  | noPerm => simp [validate_directory, alistLookup] at h
  | readable t =>
      simp only [validate_directory] at h
      obtain ⟨comps, name, rec, -, hr, hh, -⟩ :=
        (scanDir_shape sha ig bfn).1 t "" p r (alistLookup_mem h)
      exact ⟨rec, hr, hh, by rw [hr]; rfl⟩

/-- A concrete hex-digest stand-in for the abstract hash function. -/
def shaD : List Nat → String := fun _ => "D"

/-- Sample directory tree: a regular file, a hidden file, the log file, an
unreadable file, a hidden subdirectory and a regular subdirectory. -/
def sampleTree : FSDir :=
  .node [("a.txt", ⟨some (5, 1, 2), .content [1, 2, 3]⟩),
         (".hidden", ⟨some (5, 1, 2), .content [1]⟩),
         ("fim.log", ⟨some (5, 1, 2), .content [2]⟩),
         ("bad.txt", ⟨some (5, 1, 2), .permissionError⟩)]
    (.cons ".git" (.node [("inner.txt", ⟨some (5, 1, 2), .content [3]⟩)] .nil)
      (.cons "sub" (.node [("b.txt", ⟨some (7, 1, 2), .content [4]⟩)] .nil) .nil))

/-- Witness instantiating the scan-record theorem on the sample tree. -/
theorem scan_records_have_hash_witness :
    alistLookup "sub/b.txt"
        (scan_directory shaD (ignoreFiles []) "baseline.json"
          (.readable sampleTree)) = some (rawOfRecord ⟨"D", 7, 1, 2⟩) ∧
    ∃ rec : FileRecord, rawOfRecord (⟨"D", 7, 1, 2⟩ : FileRecord) = rawOfRecord rec ∧
      rec.hash ≠ "" ∧
      lookupKey "hash" (rawOfRecord (⟨"D", 7, 1, 2⟩ : FileRecord)) =
        some (.str rec.hash) :=
  ⟨by rfl,
   scan_records_have_hash shaD (ignoreFiles []) "baseline.json"
     (.readable sampleTree) "sub/b.txt" (rawOfRecord ⟨"D", 7, 1, 2⟩) (by rfl)⟩

/-- Character data of a component path: the segments joined by the
separator character. -/
def segsData (comps : List String) (name : String) : List Char :=
  match comps with
  | [] => name.data
  | c :: tl => c.data ++ '/' :: segsData tl name

theorem validName_spec {s : String} (h : validName s = true) :
    s.data ≠ [] ∧ '/' ∉ s.data := by
  rw [validName, Bool.and_eq_true] at h
  obtain ⟨h1, h2⟩ := h
  simp at h1 h2
  exact ⟨h1, h2⟩

theorem validName_ne_empty {s : String} (h : validName s = true) : s ≠ "" := by
  intro he
  subst he
  exact (validName_spec h).1 rfl

theorem joinPath_data {pfx name : String} (h : pfx ≠ "") :
    (joinPath pfx name).data = pfx.data ++ '/' :: name.data := by
  rw [joinPath, if_neg h]
  cases pfx
  cases name
  show (_ ++ ['/']) ++ _ = _
  simp

theorem joinPath_ne_empty {pfx name : String} (h : pfx ≠ "") :
    joinPath pfx name ≠ "" := by
  intro he
  have : (joinPath pfx name).data = [] := by rw [he]
  rw [joinPath_data h] at this
  simp at this

theorem pathFrom_data_of_ne {pfx : String} (h : pfx ≠ "") :
    ∀ (comps : List String) (name : String),
    (pathFrom pfx comps name).data = pfx.data ++ '/' :: segsData comps name := by
  intro comps
  induction comps generalizing pfx h with
  | nil => intro name; exact joinPath_data h
  | cons c tl ih =>
      intro name
      have h2 : joinPath pfx c ≠ "" := joinPath_ne_empty h
      have : pathFrom pfx (c :: tl) name = pathFrom (joinPath pfx c) tl name := rfl
      rw [this, ih h2, joinPath_data h]
      rw [show segsData (c :: tl) name = c.data ++ '/' :: segsData tl name from rfl]
      simp

theorem pathFrom_empty_data :
    ∀ (comps : List String) (name : String), (∀ c ∈ comps, c ≠ "") →
    (pathFrom "" comps name).data = segsData comps name := by
  intro comps name hc
  cases comps with
  | nil => rfl
  | cons c tl =>
      have hcne : c ≠ "" := hc c (List.mem_cons_self _ _)
      have h1 : pathFrom "" (c :: tl) name = pathFrom c tl name := by
        show pathFrom (joinPath "" c) tl name = pathFrom c tl name
        rw [show joinPath "" c = c from rfl]
      rw [h1, pathFrom_data_of_ne hcne, segsData]

theorem chunk_inj : ∀ (a b ra rb : List Char), '/' ∉ a → '/' ∉ b →
    a ++ '/' :: ra = b ++ '/' :: rb → a = b ∧ ra = rb := by
  intro a
  induction a with
  | nil =>
      intro b ra rb _ hb h
      cases b with
      | nil => simpa using h
      | cons y tl =>
          rw [List.nil_append, List.cons_append, List.cons_eq_cons] at h
          exact absurd (show ('/' : Char) ∈ y :: tl by
            rw [← h.1]; exact List.mem_cons_self _ _) hb
  | cons x a' ih =>
      intro b ra rb ha hb h
      cases b with
      | nil =>
          rw [List.cons_append, List.nil_append, List.cons_eq_cons] at h
          exact absurd (show ('/' : Char) ∈ x :: a' by
            rw [h.1]; exact List.mem_cons_self _ _) ha
      | cons y b' =>
          rw [List.cons_append, List.cons_append, List.cons_eq_cons] at h
          obtain ⟨rfl, h2⟩ := h
          have ha' : '/' ∉ a' := fun hm => ha (List.mem_cons_of_mem _ hm)
          have hb' : '/' ∉ b' := fun hm => hb (List.mem_cons_of_mem _ hm)
          obtain ⟨rfl, hr⟩ := ih b' ra rb ha' hb' h2
          exact ⟨rfl, hr⟩

theorem segsData_inj : ∀ (comps : List String) (name : String)
    (comps' : List String) (name' : String),
    (∀ c ∈ comps, validName c = true) → (∀ c ∈ comps', validName c = true) →
    validName name = true → validName name' = true →
    segsData comps name = segsData comps' name' → comps = comps' ∧ name = name' := by
  intro comps
  induction comps with
  | nil =>
      intro name comps' name' _ hc' hn hn' h
      cases comps' with
      | nil => exact ⟨rfl, String.ext h⟩
      | cons c' tl' =>
          rw [segsData, segsData] at h
          exact absurd (h ▸ List.mem_append_right c'.data (List.mem_cons_self _ _))
            (validName_spec hn).2
  | cons c tl ih =>
      intro name comps' name' hc hc' hn hn' h
      cases comps' with
      | nil =>
          rw [segsData, segsData] at h
          exact absurd (h ▸ List.mem_append_right c.data (List.mem_cons_self _ _))
            (validName_spec hn').2
      | cons c' tl' =>
          rw [segsData, segsData] at h
          obtain ⟨hcd, hrest⟩ := chunk_inj c.data c'.data _ _
            (validName_spec (hc c (List.mem_cons_self _ _))).2
            (validName_spec (hc' c' (List.mem_cons_self _ _))).2 h
          obtain ⟨rfl, rfl⟩ := ih name tl' name'
            (fun x hx => hc x (List.mem_cons_of_mem _ hx))
            (fun x hx => hc' x (List.mem_cons_of_mem _ hx)) hn hn' hrest
          exact ⟨by rw [String.ext hcd], rfl⟩

theorem pathFrom_inj {comps : List String} {name : String}
    {comps' : List String} {name' : String}
    (hc : ∀ c ∈ comps, validName c = true) (hc' : ∀ c ∈ comps', validName c = true)
    (hn : validName name = true) (hn' : validName name' = true)
    (h : pathFrom "" comps name = pathFrom "" comps' name') :
    comps = comps' ∧ name = name' := by
  have hd : segsData comps name = segsData comps' name' := by
    rw [← pathFrom_empty_data comps name (fun c hcm => validName_ne_empty (hc c hcm)),
      ← pathFrom_empty_data comps' name' (fun c hcm => validName_ne_empty (hc' c hcm)),
      h]
  exact segsData_inj comps name comps' name' hc hc' hn hn' hd

theorem modOf_file {g : List String} {C : List (String × RawRec)}
    {pr : String × RawRec} {e : ModifiedEntry}
    (h : modOf g C pr = some e) : e.file = pr.1 := by
  simp only [modOf] at h
  split at h
  · exact absurd h (by simp)
  · split at h
    · split at h
      · injection h with he
        rw [← he]
      · exact absurd h (by simp)
    · exact absurd h (by simp)

theorem delOf_path {g : List String} {C : List (String × RawRec)}
    {pr : String × RawRec} {fp : String}
    (h : delOf g C pr = some fp) : fp = pr.1 := by
  simp only [delOf] at h
  split at h
  · exact absurd h (by simp)
  · split at h
    · exact absurd h (by simp)
    · injection h with he
      rw [← he]

theorem addOf_file {B : List (String × RawRec)} {pr : String × RawRec}
    {e : AddedEntry} (h : addOf B pr = some e) : e.file = pr.1 := by
  simp only [addOf] at h
  split at h
  · exact absurd h (by simp)
  · injection h with he
    rw [← he]

theorem scan_recsOk (sha : List Nat → String) (ig : List String) (bfn : String)
    (root : RootStatus) :
    ∀ pr ∈ scan_directory sha ig bfn root, hasHashSize pr.2 = true := by
  intro pr hpr
  obtain ⟨q, r⟩ := pr
  rw [scan_directory] at hpr
  cases root with
  | missing => simp [validate_directory] at hpr
  | notDir => simp [validate_directory] at hpr
  | noPerm => simp [validate_directory] at hpr
  | readable t =>
      simp only [validate_directory] at hpr
      obtain ⟨-, -, rec, -, hr, -⟩ := (scanDir_shape sha ig bfn).1 t "" q r hpr
      rw [hr]
      rfl

/-- C4: a file location whose filename is in the ignore set (which always
contains the log filename) or which lies below a directory component whose
name starts with a dot is absent from every scan_directory result over a
well-formed tree, and its path occurs in none of the three sequences of the
Changeset check_changes builds from two such scans, whatever the file's
content was in either tree. -/
theorem scan_and_diff_exclude (sha : List Nat → String) (user : List String)
    (bfn : String) (t1 t2 : FSDir)
    (hv1 : validDir t1 = true) (hv2 : validDir t2 = true)
    (comps : List String) (name : String)
    (hvc : ∀ c ∈ comps, validName c = true) (hvn : validName name = true)
    (hbad : name ∈ ignoreFiles user ∨ ∃ c ∈ comps, startsWithDot c = true) :
    alistLookup (pathFrom "" comps name)
        (scan_directory sha (ignoreFiles user) bfn (.readable t1)) = none ∧
    alistLookup (pathFrom "" comps name)
        (scan_directory sha (ignoreFiles user) bfn (.readable t2)) = none ∧
    (∀ e ∈ (check_changes (ignoreFiles user)
        (scan_directory sha (ignoreFiles user) bfn (.readable t1))
        (scan_directory sha (ignoreFiles user) bfn (.readable t2))).1.modified,
      e.file ≠ pathFrom "" comps name) ∧
    pathFrom "" comps name ∉ (check_changes (ignoreFiles user)
        (scan_directory sha (ignoreFiles user) bfn (.readable t1))
        (scan_directory sha (ignoreFiles user) bfn (.readable t2))).1.deleted ∧
    (∀ e ∈ (check_changes (ignoreFiles user)
        (scan_directory sha (ignoreFiles user) bfn (.readable t1))
        (scan_directory sha (ignoreFiles user) bfn (.readable t2))).1.added,
      e.file ≠ pathFrom "" comps name) := by
  have hnotin : ∀ t : FSDir, validDir t = true →
      alistLookup (pathFrom "" comps name)
        (scan_directory sha (ignoreFiles user) bfn (.readable t)) = none := by
    intro t hv
    cases hl : alistLookup (pathFrom "" comps name)
        (scan_directory sha (ignoreFiles user) bfn (.readable t)) with
    | none => rfl
    | some r =>
        rw [scan_directory] at hl
        simp only [validate_directory] at hl
        obtain ⟨comps', name', rec, hp, -, -, hd', -, hg', hc', hval⟩ :=
          (scanDir_shape sha (ignoreFiles user) bfn).1 t "" _ r (alistLookup_mem hl)
        obtain ⟨hvn', hvc'⟩ := hval hv
        obtain ⟨rfl, rfl⟩ := pathFrom_inj hvc hvc' hvn hvn' hp
        rcases hbad with hig | ⟨c, hcm, hcd⟩
        · exact absurd hig hg'
        · rw [hc' c hcm] at hcd
          exact Bool.noConfusion hcd
  have h1 := hnotin t1 hv1
  have h2 := hnotin t2 hv2
  have hnk1 : pathFrom "" comps name ∉
      keys (scan_directory sha (ignoreFiles user) bfn (.readable t1)) :=
    alistLookup_eq_none.mp h1
  have hnk2 : pathFrom "" comps name ∉
      keys (scan_directory sha (ignoreFiles user) bfn (.readable t2)) :=
    alistLookup_eq_none.mp h2
  have hB := scan_recsOk sha (ignoreFiles user) bfn (.readable t1)
  have hC := scan_recsOk sha (ignoreFiles user) bfn (.readable t2)
  refine ⟨h1, h2, ?_, ?_, ?_⟩
  · intro e hmem
    rw [check_changes_closed hB hC] at hmem
    obtain ⟨pr, hpr, hmod⟩ := List.mem_filterMap.mp hmem
    rw [modOf_file hmod]
    intro he
    exact hnk1 (he ▸ List.mem_map.mpr ⟨pr, hpr, rfl⟩)
  · intro hmem
    rw [check_changes_closed hB hC] at hmem
    obtain ⟨pr, hpr, hdel⟩ := List.mem_filterMap.mp hmem
    have := delOf_path hdel
    exact hnk1 (this ▸ List.mem_map.mpr ⟨pr, hpr, rfl⟩)
  · intro e hmem
    rw [check_changes_closed hB hC] at hmem
    obtain ⟨pr, hpr, hadd⟩ := List.mem_filterMap.mp hmem
    rw [addOf_file hadd]
    intro he
    exact hnk2 (he ▸ List.mem_map.mpr ⟨pr, hpr, rfl⟩)

/-- Witness for the exclusion theorem: in the sample tree the file
inner.txt lives inside the hidden directory .git, and its path appears
neither in the scan nor in any Changeset sequence. -/
theorem scan_and_diff_exclude_witness :
    (validDir sampleTree = true ∧
     (∀ c ∈ [".git"], validName c = true) ∧ validName "inner.txt" = true ∧
     ("inner.txt" ∈ ignoreFiles [] ∨
       ∃ c ∈ [".git"], startsWithDot c = true)) ∧
    alistLookup (pathFrom "" [".git"] "inner.txt")
        (scan_directory shaD (ignoreFiles []) "baseline.json"
          (.readable sampleTree)) = none ∧
    (∀ e ∈ (check_changes (ignoreFiles [])
        (scan_directory shaD (ignoreFiles []) "baseline.json" (.readable sampleTree))
        (scan_directory shaD (ignoreFiles []) "baseline.json"
          (.readable sampleTree))).1.modified,
      e.file ≠ pathFrom "" [".git"] "inner.txt") :=
  ⟨⟨by decide, by decide, by decide, by decide⟩,
   (scan_and_diff_exclude shaD [] "baseline.json" sampleTree sampleTree
      (by decide) (by decide) [".git"] "inner.txt" (by decide) (by decide)
      (by decide)).1,
   (scan_and_diff_exclude shaD [] "baseline.json" sampleTree sampleTree
      (by decide) (by decide) [".git"] "inner.txt" (by decide) (by decide)
      (by decide)).2.2.1⟩

/-- C6: for a root that does not exist, is not a directory, or is not
readable, directory validation fails with the matching DirError kind, and
scan_directory catches the failure and returns the empty mapping to its
caller instead of letting it propagate past the scan boundary. -/
theorem scan_directory_invalid_root (sha : List Nat → String) (ig : List String)
    (bfn : String) :
    (validate_directory .missing = .error .doesNotExist ∧
      scan_directory sha ig bfn .missing = []) ∧
    (validate_directory .notDir = .error .notADirectory ∧
      scan_directory sha ig bfn .notDir = []) ∧
    (validate_directory .noPerm = .error .permissionDenied ∧
      scan_directory sha ig bfn .noPerm = []) :=
  ⟨⟨rfl, rfl⟩, ⟨rfl, rfl⟩, ⟨rfl, rfl⟩⟩

/-- C7: calculate_hash returns the skip-signal rather than an exception on a
permission error, a missing file, an I/O error or any other failure, and a
file whose byte length strictly exceeds the maximum readable size (500 MiB
by default) also yields the skip-signal; a file whose record could not be
built is simply dropped from the walk of its directory, so the overall scan
does not fail. -/
theorem calculate_hash_skips (sha : List Nat → String) :
    calculate_hash sha max_file_size .permissionError = none ∧
    calculate_hash sha max_file_size .fileNotFound = none ∧
    calculate_hash sha max_file_size .ioError = none ∧
    calculate_hash sha max_file_size .otherError = none ∧
    (∀ bytes : List Nat, bytes.length > max_file_size →
      calculate_hash sha max_file_size (.content bytes) = none) ∧
    (∀ (ig : List String) (bfn pfx nm : String) (fn : FileNode)
        (files : List (String × FileNode)) (subdirs : FSDirList),
      get_file_info sha fn = none →
      scanDir sha ig bfn pfx (.node ((nm, fn) :: files) subdirs) =
        scanDir sha ig bfn pfx (.node files subdirs)) := by
  refine ⟨rfl, rfl, rfl, rfl, ?_, ?_⟩
  · intro bytes hlen
    simp only [calculate_hash]
    rw [if_pos hlen]
  · intro ig bfn pfx nm fn files subdirs hnone
    rw [scanDir, scanDir, scanFiles, scanFiles, List.filterMap_cons]
    simp [hnone]

/-- Witness for the hasher theorem: a file one byte over the size limit is
skipped, and an unreadable file is dropped from its directory's walk without
failing the scan. -/
theorem calculate_hash_skips_witness :
    (List.replicate (max_file_size + 1) 0).length > max_file_size ∧
    calculate_hash shaD max_file_size
      (.content (List.replicate (max_file_size + 1) 0)) = none ∧
    get_file_info shaD ⟨some (1, 1, 1), .permissionError⟩ = none ∧
    scanDir shaD (ignoreFiles []) "baseline.json" ""
        (.node [("bad.txt", ⟨some (1, 1, 1), .permissionError⟩)] .nil) =
      scanDir shaD (ignoreFiles []) "baseline.json" "" (.node [] .nil) :=
  ⟨by rw [List.length_replicate]; exact Nat.lt_succ_self _,
   (calculate_hash_skips shaD).2.2.2.2.1 (List.replicate (max_file_size + 1) 0)
     (by rw [List.length_replicate]; exact Nat.lt_succ_self _),
   rfl,
   (calculate_hash_skips shaD).2.2.2.2.2 (ignoreFiles []) "baseline.json" ""
     "bad.txt" ⟨some (1, 1, 1), .permissionError⟩ [] .nil rfl⟩

/-- The entries of a JSON object field list, in document order. -/
def fieldsList : JsonFields → List (String × Json)
  | .nil => []
  | .cons k v tl => (k, v) :: fieldsList tl

/-- An entry value passes load_baseline's per-entry shape validation: it is
a dict containing all required keys. -/
def entryOk (info : Json) : Bool :=
  match info with
  | .obj fields => recordHasRequired fields
  | _ => false

/-- Induction over JSON object field lists alone, extracted from the
mutual recursor. -/
theorem jsonFieldsInduction (Q : JsonFields → Prop)
    (hnil : Q .nil)
    (hcons : ∀ k v tl, Q tl → Q (.cons k v tl)) :
    ∀ l, Q l := by
  intro l
  refine @JsonFields.rec (fun _ => True) (fun _ => True) Q
    ?_ ?_ ?_ ?_ ?_ ?_ ?_ ?_ ?_ ?_ l <;>
    intros <;> first | exact hnil | (apply hcons; assumption) | trivial

theorem loadEntries_rejects : ∀ entries : JsonFields,
    (∃ pr ∈ fieldsList entries, entryOk pr.2 = false) →
    ∃ pa i, (pa, i) ∈ fieldsList entries ∧ entryOk i = false ∧
      ((∃ fs, i = .obj fs ∧ loadEntries entries = .error (.missingKeys pa)) ∨
       ((∀ fs, i ≠ .obj fs) ∧ loadEntries entries = .error (.invalidEntry pa))) := by
  refine jsonFieldsInduction _ ?_ ?_
  · rintro ⟨pr, hmem, -⟩
    simp [fieldsList] at hmem
  · intro path info tl ih
    rintro ⟨pr, hmem, hbad⟩
    by_cases hok : entryOk info = true
    · have hmem' : pr ∈ fieldsList tl := by
        rcases List.mem_cons.mp hmem with rfl | h
        · rw [hbad] at hok
          exact Bool.noConfusion hok
        · exact h
      obtain ⟨pa, i, hm', hb', hcase⟩ := ih ⟨pr, hmem', hbad⟩
      refine ⟨pa, i, List.mem_cons_of_mem _ hm', hb', ?_⟩
      cases info with
      | obj fields =>
          rw [entryOk] at hok
          rcases hcase with ⟨fs, hfs, herr⟩ | ⟨hnf, herr⟩
          · refine Or.inl ⟨fs, hfs, ?_⟩
            simp only [loadEntries]
            rw [if_pos hok, herr]
          · refine Or.inr ⟨hnf, ?_⟩
            simp only [loadEntries]
            rw [if_pos hok, herr]
      | null => exact Bool.noConfusion hok
      | bool b => exact Bool.noConfusion hok
      | num q => exact Bool.noConfusion hok
      | str s => exact Bool.noConfusion hok
      | arr elems => exact Bool.noConfusion hok
    · rw [Bool.not_eq_true] at hok
      refine ⟨path, info, List.mem_cons_self _ _, hok, ?_⟩
      cases info with
      | obj fields =>
          rw [entryOk] at hok
          refine Or.inl ⟨fields, rfl, ?_⟩
          simp only [loadEntries]
          rw [if_neg (by rw [hok]; exact Bool.noConfusion)]
      | null => exact Or.inr ⟨fun fs h => Json.noConfusion h, rfl⟩
      | bool b => exact Or.inr ⟨fun fs h => Json.noConfusion h, rfl⟩
      | num q => exact Or.inr ⟨fun fs h => Json.noConfusion h, rfl⟩
      | str s => exact Or.inr ⟨fun fs h => Json.noConfusion h, rfl⟩
      | arr elems => exact Or.inr ⟨fun fs h => Json.noConfusion h, rfl⟩

/-- C8: load_baseline fails with the dictionary-shape error whenever the
parsed top-level value is not a mapping, and whenever some entry's value is
not a mapping or lacks one of the four required fields hash, size, modified,
created it fails with a schema error that names an offending entry's path;
in particular a baseline containing an entry missing its size field is
refused rather than silently accepted. -/
theorem load_baseline_schema :
    (∀ j : Json, (∀ fs, j ≠ .obj fs) → load_baseline j = .error .notDict) ∧
    (∀ entries : JsonFields, (∃ pr ∈ fieldsList entries, entryOk pr.2 = false) →
      ∃ pa i, (pa, i) ∈ fieldsList entries ∧ entryOk i = false ∧
        ((∃ fs, i = .obj fs ∧
            load_baseline (.obj entries) = .error (.missingKeys pa)) ∨
         ((∀ fs, i ≠ .obj fs) ∧
            load_baseline (.obj entries) = .error (.invalidEntry pa)))) := by
  constructor
  · intro j hj
    cases j with
    | obj fs => exact absurd rfl (hj fs)
    | null => rfl
    | bool b => rfl
    | num q => rfl
    | str s => rfl
    | arr elems => rfl
  · intro entries h
    exact loadEntries_rejects entries h

/-- A baseline entry missing its size field. -/
def entryNoSize : JsonFields :=
  .cons "hash" (.str "h")
    (.cons "modified" (.num 1) (.cons "created" (.num 2) .nil))

/-- Witness for the schema theorem: a non-mapping document is refused with
the dictionary error, and a one-entry document whose record misses the size
field is refused with a schema error naming that entry. -/
theorem load_baseline_schema_witness :
    ((∀ fs, Json.arr .nil ≠ Json.obj fs) ∧
      load_baseline (.arr .nil) = .error .notDict) ∧
    ((∃ pr ∈ fieldsList (.cons "a.txt" (.obj entryNoSize) .nil),
        entryOk pr.2 = false) ∧
      ∃ pa i, (pa, i) ∈ fieldsList (.cons "a.txt" (.obj entryNoSize) .nil) ∧
        entryOk i = false ∧
        ((∃ fs, i = .obj fs ∧
            load_baseline (.obj (.cons "a.txt" (.obj entryNoSize) .nil)) =
              .error (.missingKeys pa)) ∨
         ((∀ fs, i ≠ .obj fs) ∧
            load_baseline (.obj (.cons "a.txt" (.obj entryNoSize) .nil)) =
              .error (.invalidEntry pa)))) :=
  ⟨⟨fun fs h => Json.noConfusion h,
    load_baseline_schema.1 (.arr .nil) (fun fs h => Json.noConfusion h)⟩,
   ⟨⟨("a.txt", .obj entryNoSize), by decide, by rfl⟩,
    load_baseline_schema.2 (.cons "a.txt" (.obj entryNoSize) .nil)
      ⟨("a.txt", .obj entryNoSize), by decide, by rfl⟩⟩⟩

/-- C9: whenever the scan underlying create_baseline produces the empty
mapping (a failed directory validation, or a directory in which every file
was skipped), create_baseline returns failure and writes no document, so a
baseline with zero entries is never persisted. -/
theorem create_baseline_empty (sha : List Nat → String) (ig : List String)
    (bfn : String) (root : RootStatus)
    (h : scan_directory sha ig bfn root = []) :
    create_baseline sha ig bfn root = (false, none) := by
  simp [create_baseline, h]

/-- A readable tree whose only file cannot be read, so that its scan is
empty although directory validation succeeds. -/
def allSkippedTree : FSDir :=
  .node [("bad.txt", ⟨some (1, 1, 1), .permissionError⟩)] .nil

/-- Witness for create_baseline on both empty-scan cases: a missing root
and a readable root whose every file was skipped. -/
theorem create_baseline_empty_witness :
    (scan_directory shaD (ignoreFiles []) "baseline.json" .missing = [] ∧
      create_baseline shaD (ignoreFiles []) "baseline.json" .missing =
        (false, none)) ∧
    (scan_directory shaD (ignoreFiles []) "baseline.json"
        (.readable allSkippedTree) = [] ∧
      create_baseline shaD (ignoreFiles []) "baseline.json"
        (.readable allSkippedTree) = (false, none)) :=
  ⟨⟨rfl, create_baseline_empty shaD (ignoreFiles []) "baseline.json" .missing rfl⟩,
   ⟨rfl, create_baseline_empty shaD (ignoreFiles []) "baseline.json"
      (.readable allSkippedTree) rfl⟩⟩

/-- C10: whenever the comparison body of check_changes raises, the
surrounding handler returns the empty Changeset together with an empty
current-state mapping, which is exactly the value check_changes returns for
a genuine comparison of two empty mappings, so the caller cannot tell an
internal comparison error from a no-changes result by the return value
alone. -/
theorem check_changes_swallows_errors (ig : List String)
    (B C : List (String × RawRec)) (e : String)
    (h : diff_except ig B C = .error e) :
    check_changes ig B C = (⟨[], [], []⟩, []) ∧
    check_changes ig B C = check_changes ig [] [] := by
  constructor
  · rw [check_changes, h]
  · rw [check_changes, h]
    rfl

/-- Witness for the error-swallowing theorem: a baseline record with no
hash field raises a KeyError inside the first loop, and check_changes
returns the empty result although the current mapping is nonempty. -/
theorem check_changes_swallows_errors_witness :
    diff_except (ignoreFiles []) [("a.txt", JsonFields.nil)] sampleCur =
      .error "hash" ∧
    check_changes (ignoreFiles []) [("a.txt", JsonFields.nil)] sampleCur =
      (⟨[], [], []⟩, []) :=
  ⟨by rfl,
   (check_changes_swallows_errors (ignoreFiles []) [("a.txt", JsonFields.nil)]
      sampleCur "hash" (by rfl)).1⟩

end FIM
